import Mathlib

/-!
Verification of the per-addon git storage pipeline (`olympia/lib/git.py`).

The module is shallow-embedded:

* the sandbox working directory (a `TemporaryWorktree`) is modelled by the
  list of file paths it contains, each path a list of segments;
* the shared repository is modelled by an append-only list of commits (the
  object store, a commit's oid being its index), an association list of
  branch pointers, and the target of the implicit default ref;
* every fallible external effect of one `_commit_through_worktree` call
  (archive extraction, the `uuid4` draws, the tree write, the commit-object
  write, the worktree teardown) is an explicit input, so that each failure
  path of the Python code is a reachable branch of the model.
-/

namespace Olympia

/-- One path segment (a file or directory name). -/
abbrev Seg := String

/-- A relative filesystem path, as its list of segments. -/
abbrev Path := List Seg

/-- The contents of a sandbox working directory, as the list of the relative
paths of its files.  Directories exist implicitly as the proper initial
segments of file paths (git trees record no empty directories, so empty
directories are immaterial to the committed result). -/
abbrev FS := List Path

/-- `p` is an initial segment of `f` (so `p` names `f` itself or one of the
directories on the way to it). -/
def isInitSeg (p f : Path) : Bool := decide (f.take p.length = p)

/-- `os.path.basename`: the final segment of a path. -/
def basename (p : Path) : Option Seg := p.getLast?

/-- The path `p` names an existing entry (file or directory) of the sandbox:
it is an initial segment of some file's path. -/
def isEntry (fs : FS) (p : Path) : Bool := fs.any (fun f => isInitSeg p f)

/-- Effect of `shutil.move src dst` on a single file path: a file below
`src` is relocated below `dst`, any other file is untouched. -/
def movePath (src dst f : Path) : Path :=
  if isInitSeg src f then dst ++ f.drop src.length else f

/-- `'{}.{}'.format(filename, uuid.uuid4().hex[:8])`: rename the final
segment of a `.git` path by appending a dot and the first 8 characters of a
uuid hex draw. -/
def gitRename (p : Path) (hex8 : String) : Path :=
  p.dropLast ++ [".git." ++ hex8]

/-- The nonempty initial segments of a file path: the directories on the way
to the file, and the file itself. -/
def initSegs (f : Path) : List Path :=
  (List.range f.length).map (fun n => f.take (n + 1))

/-- Modelled from the spec: `get_all_files` (in `olympia.files.utils`, not
part of the analysed sources) — "recursive filesystem enumeration — given a
root directory, returns all file paths relative to a base".  The
repository's tests show it enumerates directories as well as files (a
directory named `.git` is renamed), so it is modelled as returning every
entry — directory or file — of the sandbox tree exactly once. -/
def allEntries (fs : FS) : List Path := (fs.flatMap initSegs).dedup

/-- The `.git`-sanitisation loop of `_commit_through_worktree`: walk the
pre-computed enumeration, and whenever an entry's final segment is exactly
`.git`, `shutil.move` it to the randomly suffixed name.  `uuid j` is the
`j`-th `uuid4().hex` draw; moving a path that no longer exists raises
(`none`). -/
def sanitize (uuid : Nat → String) : Nat → FS → List Path → Option FS
  | _, fs, [] => some fs
  | k, fs, e :: es =>
    if basename e = some ".git" then
      if isEntry fs e then
        sanitize uuid (k + 1)
          (fs.map (movePath e (gitRename e ((uuid k).take 8)))) es
      else none
    else sanitize uuid k fs es

/-- The sixteen lowercase hex digits (the alphabet of `uuid4().hex`). -/
def hexDigits : List Char := "0123456789abcdef".data

/-! ## Identities, commits and the repository -/

/-- A `pygit2.Signature`. -/
structure Signature where
  name : String
  email : String
deriving DecidableEq, Repr

/-- The uploading user, as far as this module reads it. -/
structure UserProfile where
  name : String
  email : String
deriving DecidableEq, Repr

/-- `AddonGitRepository.get_author`. -/
def getAuthor : Option UserProfile → Signature
  | some user => { name := user.name, email := user.email }
  | none =>
    { name := "Mozilla Add-ons Robot"
      email := "addons-dev-automation+github@mozilla.com" }

/-- A commit object.  Its tree is recorded as the set of file paths it
contains (each path including the `extracted` prefix folder); parents are
oids, i.e. indices into the repository's commit store. -/
structure Commit where
  tree : FS
  author : Signature
  committer : Signature
  message : String
  parents : List Nat
deriving DecidableEq, Repr

/-- The shared repository: an append-only object store of commits (the oid
of a commit is its index), the branch pointers, and the target of the
implicit default ref (`HEAD` points at `master`, which this module creates
at initialization and never advances: channel commits are created with
`ref=None` and only `listed`/`unlisted` are retargeted). -/
structure Repo where
  commits : List Commit
  branches : List (String × Nat)
  headTarget : Nat
deriving DecidableEq, Repr

/-- The root commit written by repository initialization: empty tree, the
robot identity as both author and committer, fixed message, no parents. -/
def rootCommit : Commit :=
  { tree := []
    author := getAuthor none
    committer := getAuthor none
    message := "Initializing repository"
    parents := [] }

/-- A freshly initialized repository: the root commit on the default ref. -/
def initRepo : Repo :=
  { commits := [rootCommit]
    branches := [("master", 0)]
    headTarget := 0 }

/-- `AddonGitRepository.git_repository`: if the repository path does not
exist on disk (`none`), create and initialize it with the root commit;
otherwise open the existing repository as is. -/
def gitRepository : Option Repo → Repo
  | none => initRepo
  | some repo => repo

/-- `repository.branches.get(name)` on a raw pointer list. -/
def lookupBr (bs : List (String × Nat)) (name : String) : Option Nat :=
  (bs.find? (fun b => b.1 == name)).map Prod.snd

/-- `repository.branches.get(name)`. -/
def lookupBranch (r : Repo) (name : String) : Option Nat :=
  lookupBr r.branches name

/-- `branch.set_target(...)` on a raw pointer list. -/
def setBr (bs : List (String × Nat)) (name : String) (target : Nat) :
    List (String × Nat) :=
  bs.map (fun b => if b.1 == name then (name, target) else b)

/-- `branch.set_target(...)`: retarget an existing branch pointer. -/
def setBranchTarget (r : Repo) (name : String) (target : Nat) : Repo :=
  { r with branches := setBr r.branches name target }

/-- `AddonGitRepository.find_or_create_branch`: return the existing branch,
or create one pointing at `head.peel()` — the default ref's commit. -/
def findOrCreateBranch (r : Repo) (name : String) : Repo × Nat :=
  match lookupBranch r name with
  | some t => (r, t)
  | none =>
    ({ r with branches := r.branches ++ [(name, r.headTarget)] },
     r.headTarget)

/-! ## The commit pipeline -/

/-- The failures that can surface from one materialization. -/
inductive GitError where
  /-- `extract_extension_to_dest` raised (corrupt archive, …). -/
  | extraction
  /-- a `shutil.move` of the `.git`-sanitisation loop raised. -/
  | moveFailure
  /-- `index.write_tree` failed writing the tree object. -/
  | staging
  /-- `create_commit` failed writing the commit object. -/
  | commitCreation
  /-- `TemporaryWorktree.__exit__` raised during teardown. -/
  | cleanup
  /-- the branch object handed to `_commit_through_worktree` is not a
  branch of the repository (unreachable from the module's entry points). -/
  | missingBranch
deriving DecidableEq, Repr

/-- The outcomes of the external and fallible effects consumed by one
`_commit_through_worktree` call. -/
structure WorldStep where
  /-- what `extract_extension_to_dest` extracts into `extracted/` (paths
  relative to the extraction target), or `none` if it raises. -/
  extracted : Option (List Path)
  /-- the successive `uuid4().hex` draws. -/
  uuidHex : Nat → String
  /-- `index.write_tree` succeeds. -/
  stageOk : Bool
  /-- `create_commit` succeeds. -/
  commitOk : Bool
  /-- the worktree teardown (`shutil.rmtree`, prune, branch delete)
  succeeds. -/
  cleanupOk : Bool

/-- The body of the `with TemporaryWorktree(...)` block of
`_commit_through_worktree`: extract, enumerate, sanitise `.git` entries,
stage and write the tree, create the commit on top of the branch's current
tip, and retarget the branch.  Returns the repository after the body and
the new commit's oid. -/
def worktreeBody (w : WorldStep) (r : Repo) (message : String)
    (author : Option UserProfile) (branch : String) :
    Except GitError (Repo × Nat) :=
  match w.extracted with
  | none => Except.error GitError.extraction
  | some files =>
    let fs0 : FS := files.map (fun f => "extracted" :: f)
    match sanitize w.uuidHex 0 fs0 (allEntries fs0) with
    | none => Except.error GitError.moveFailure
    | some fsFinal =>
      if w.stageOk = false then Except.error GitError.staging
      else
        match lookupBranch r branch with
        | none => Except.error GitError.missingBranch
        | some parent =>
          if w.commitOk = false then Except.error GitError.commitCreation
          else
            let newCommit : Commit :=
              { tree := fsFinal
                author := getAuthor author
                committer := getAuthor none
                message := message
                parents := [parent] }
            let oid := r.commits.length
            let r1 : Repo := { r with commits := r.commits ++ [newCommit] }
            Except.ok (setBranchTarget r1 branch oid, oid)

/-- What one `_commit_through_worktree` call leaves behind: the outcome the
caller sees, the final repository state, and whether the sandbox (temporary
directory, worktree linkage, ephemeral branch reference) was released. -/
structure RunOutcome where
  result : Except GitError Nat
  repo : Repo
  released : Bool
deriving Repr

/-- `_commit_through_worktree`.  The `with` statement runs
`TemporaryWorktree.__exit__` on every exit path of the body;  `__exit__`
performs no exception handling, so when the teardown itself raises, that
exception propagates to the caller and replaces the body's outcome —
without rolling back any object-store write or branch update the body
already performed. -/
def commitThroughWorktree (w : WorldStep) (r : Repo) (message : String)
    (author : Option UserProfile) (branch : String) : RunOutcome :=
  match worktreeBody w r message author branch with
  | Except.ok (r1, oid) =>
    if w.cleanupOk then
      { result := Except.ok oid, repo := r1, released := true }
    else
      { result := Except.error GitError.cleanup, repo := r1,
        released := false }
  | Except.error e =>
    if w.cleanupOk then
      { result := Except.error e, repo := r, released := true }
    else
      { result := Except.error GitError.cleanup, repo := r,
        released := false }

/-- One `materialize_revision` call (the repository-side body of
`extract_and_commit_from_version`): resolve the channel branch, then commit
through a temporary worktree. -/
def materializeRevision (w : WorldStep) (r : Repo) (channel : String)
    (message : String) (author : Option UserProfile) : RunOutcome :=
  let fc := findOrCreateBranch r channel
  commitThroughWorktree w fc.1 message author channel

/-- The process-global translation state read and written through
`django.utils.translation`. -/
structure TransState where
  language : String
deriving DecidableEq, Repr

/-- `extract_and_commit_from_version`: remember the active language,
activate `en-US`, run the pipeline, and — in the `finally` block, on the
success path and on every error path alike — re-activate the remembered
language. -/
def extractAndCommitFromVersion (w : WorldStep) (onDisk : Option Repo)
    (channel : String) (message : String) (author : Option UserProfile)
    (st : TransState) : Except GitError Repo × TransState :=
  let current := st.language
  let running : TransState := { language := "en-US" }
  match materializeRevision w (gitRepository onDisk) channel message
      author with
  | { result := Except.ok _, repo := r1, released := _ } =>
    (Except.ok r1, { running with language := current })
  | { result := Except.error e, repo := _, released := _ } =>
    (Except.error e, { running with language := current })

/-! ## Reading commits back -/

/-- `AddonGitRepository.get_root_tree`:
`self.git_repository[commit.tree[EXTRACTED_PREFIX].oid]` — look the
`extracted` entry up in the commit's tree (a `KeyError` when absent) and
return the subtree below it. -/
def getRootTree (c : Commit) : Except Unit FS :=
  if c.tree.any (fun p => p.head? == some "extracted") then
    Except.ok
      ((c.tree.filter (fun p => p.head? == some "extracted")).map List.tail)
  else Except.error ()

/-- A node of the object store as seen by `iter_tree`: a blob, or a tree
whose entries are listed in the tree's canonical (byte-lexicographic)
storage order — the order `pygit2` iterates them in. -/
inductive GitObj where
  | blob (content : String)
  | tree (entries : List (String × GitObj))

/-- The `Entry` namedtuple yielded by `iter_tree`: the raw entry descriptor
(reduced to its name), the path relative to the traversal root, and the
blob handle (`none` for a directory). -/
structure TreeEntryWrapper where
  name : String
  path : String
  blob : Option String
deriving DecidableEq, Repr

/-- `AddonGitRepository.iter_tree` on a tree's entry list: for each entry in
order, a blob is yielded with its blob handle; a subtree is yielded (with no
blob handle) immediately followed by its own traversal, each child path
prefixed by the directory name. -/
def iterTree : List (String × GitObj) → List TreeEntryWrapper
  | [] => []
  | (n, GitObj.blob c) :: rest =>
    { name := n, path := n, blob := some c } :: iterTree rest
  | (n, GitObj.tree children) :: rest =>
    { name := n, path := n, blob := none }
      :: ((iterTree children).map
            (fun w => { w with path := n ++ "/" ++ w.path })
          ++ iterTree rest)

/-! ## Serial histories -/

/-- The chain of oids reachable from `oid` through first parents, fuelled
(the store is finite and parents always precede children, so a fuel of
`commits.length` is always enough). -/
def historyFrom (r : Repo) : Nat → Nat → List Nat
  | 0, _ => []
  | fuel + 1, oid =>
    oid ::
      match (r.commits.get? oid).map Commit.parents with
      | some (p :: _) => historyFrom r fuel p
      | some [] => []
      | none => []

/-- The history of a branch: the parent chain from its tip. -/
def branchHistory (r : Repo) (name : String) : List Nat :=
  match lookupBranch r name with
  | some t => historyFrom r r.commits.length t
  | none => []

/-- The caller-supplied ingredients of one serial `materialize_revision`
call. -/
structure CallSpec where
  message : String
  author : Option UserProfile
  files : List Path
  uuidHex : Nat → String

/-- The world of a call on which every external effect succeeds. -/
def okWorld (c : CallSpec) : WorldStep :=
  { extracted := some c.files
    uuidHex := c.uuidHex
    stageOk := true
    commitOk := true
    cleanupOk := true }

/-- Issue a sequence of `materialize_revision` calls serially on one
channel. -/
def runSerial (channel : String) : Repo → List CallSpec → Repo
  | r, [] => r
  | r, c :: cs =>
    runSerial channel
      (materializeRevision (okWorld c) r channel c.message c.author).repo cs

/-- Invariant of a repository on which the messages `ms` have been
committed serially onto `channel`: one commit per call on top of the root,
each parented on its predecessor, the branch at the tip (the branch does
not exist yet only when no call was made). -/
def SerialInv (channel : String) (ms : List String) (r : Repo) : Prop :=
  r.commits.length = ms.length + 1 ∧
  r.headTarget = 0 ∧
  r.commits.get? 0 = some rootCommit ∧
  (∀ i : Nat, (r.commits.get? (i + 1)).map Commit.message = ms.get? i) ∧
  (∀ i : Nat, (r.commits.get? (i + 1)).map Commit.parents
    = (ms.get? i).map (fun _ => [i])) ∧
  (lookupBranch r channel = some ms.length ∨
    (ms = [] ∧ lookupBranch r channel = none))

/-! ## Ghost state for the `.git`-sanitisation proof -/

/-- The position of the first `.git` segment of a path, if any. -/
def gitIdx : Path → Option Nat
  | [] => none
  | a :: as => if a = ".git" then some 0 else (gitIdx as).map (· + 1)

/-- Replace the segment at position `n`. -/
def renameAt (f : Path) (n : Nat) (v : Seg) : Path :=
  f.take n ++ v :: f.drop (n + 1)

/-- Apply a (ghost) record `σ` of performed renames to one file path: if the
file has a `.git` segment and the entry up to it was renamed with suffix
`s`, that segment now reads `".git." ++ s`. -/
def applyRen (σ : Path → Option String) (f : Path) : Path :=
  match gitIdx f with
  | none => f
  | some n =>
    match σ (f.take (n + 1)) with
    | none => f
    | some s => renameAt f n (".git." ++ s)

/-! ## Concrete fixtures (used to instantiate the general theorems) -/

/-- A fixed `uuid4().hex` draw (the one used by the repository's tests). -/
def uuidConst : Nat → String := fun _ => "b236f5994773477bbcd2d1b75ab1458f"

/-- A plain one-file upload. -/
def callA : CallSpec :=
  { message := "rev 1", author := none, files := [["manifest.json"]]
    uuidHex := uuidConst }

/-- A fresh repository with the `listed` branch created. -/
def repoListed : Repo := (findOrCreateBranch initRepo "listed").1

/-- An archive holding a nested directory literally named `.git`. -/
def dotGitFiles : List Path :=
  [["manifest.json"], ["some", "dir", ".git", "config"]]

/-- A fully successful world whose extraction yields `dotGitFiles`. -/
def worldDotGit : WorldStep :=
  { extracted := some dotGitFiles, uuidHex := uuidConst
    stageOk := true, commitOk := true, cleanupOk := true }

/-- A world on which archive extraction raises. -/
def worldExtractFail : WorldStep :=
  { extracted := none, uuidHex := uuidConst
    stageOk := true, commitOk := true, cleanupOk := true }

/-- A world on which the tree write fails. -/
def worldStageFail : WorldStep :=
  { extracted := some [["manifest.json"]], uuidHex := uuidConst
    stageOk := false, commitOk := true, cleanupOk := true }

/-- A world on which commit-object creation fails. -/
def worldCommitFail : WorldStep :=
  { extracted := some [["manifest.json"]], uuidHex := uuidConst
    stageOk := true, commitOk := false, cleanupOk := true }

/-- A world on which everything succeeds except the sandbox teardown. -/
def worldCleanupFail : WorldStep :=
  { extracted := some [["manifest.json"]], uuidHex := uuidConst
    stageOk := true, commitOk := true, cleanupOk := false }

/-! ## Basic lemmas -/

theorem get?_snoc {α : Type} (l : List α) (a : α) :
    (l ++ [a]).get? l.length = some a := by
  induction l with
  | nil => rfl
  | cons b t ih => exact ih

theorem lookupBr_cons (s : String) (u : Nat) (bs : List (String × Nat))
    (m : String) :
    lookupBr ((s, u) :: bs) m = if s = m then some u else lookupBr bs m := by
  by_cases h : s = m
  · simp [lookupBr, List.find?_cons, h]
  · simp [lookupBr, List.find?_cons, h]

theorem lookupBr_append_of_none {bs : List (String × Nat)} {n : String}
    (t : Nat) (h : lookupBr bs n = none) :
    lookupBr (bs ++ [(n, t)]) n = some t := by
  induction bs with
  | nil => simp [lookupBr_cons, lookupBr]
  | cons b bs ih =>
    obtain ⟨s, u⟩ := b
    rw [lookupBr_cons] at h
    by_cases hs : s = n
    · simp [hs] at h
    · rw [List.cons_append, lookupBr_cons, if_neg hs]
      rw [if_neg hs] at h
      exact ih h

theorem lookupBr_append_of_ne {bs : List (String × Nat)} {n m : String}
    (t : Nat) (h : m ≠ n) :
    lookupBr (bs ++ [(n, t)]) m = lookupBr bs m := by
  induction bs with
  | nil =>
    have hnm : (n == m) = false := by
      simpa using fun hs => h hs.symm
    simp [lookupBr, List.find?_cons, hnm]
  | cons b bs ih =>
    obtain ⟨s, u⟩ := b
    rw [List.cons_append, lookupBr_cons, lookupBr_cons]
    by_cases hs : s = m
    · simp [hs]
    · rw [if_neg hs, if_neg hs, ih]

theorem lookupBr_setBr_self {bs : List (String × Nat)} {n : String} {t : Nat}
    (v : Nat) (h : lookupBr bs n = some t) :
    lookupBr (setBr bs n v) n = some v := by
  induction bs with
  | nil => simp [lookupBr] at h
  | cons b bs ih =>
    obtain ⟨s, u⟩ := b
    rw [lookupBr_cons] at h
    by_cases hs : s = n
    · simp [setBr, hs, lookupBr_cons]
    · have : setBr ((s, u) :: bs) n v = (s, u) :: setBr bs n v := by
        simp [setBr, hs]
      rw [this, lookupBr_cons, if_neg hs]
      rw [if_neg hs] at h
      exact ih h

theorem lookupBr_setBr_of_ne {bs : List (String × Nat)} {n m : String}
    (v : Nat) (h : m ≠ n) :
    lookupBr (setBr bs n v) m = lookupBr bs m := by
  induction bs with
  | nil => simp [setBr, lookupBr]
  | cons b bs ih =>
    obtain ⟨s, u⟩ := b
    by_cases hs : s = n
    · have : setBr ((s, u) :: bs) n v = (n, v) :: setBr bs n v := by
        simp [setBr, hs]
      rw [this, lookupBr_cons, lookupBr_cons, hs,
        if_neg (fun hc => h hc.symm), if_neg (fun hc => h hc.symm), ih]
    · have : setBr ((s, u) :: bs) n v = (s, u) :: setBr bs n v := by
        simp [setBr, hs]
      rw [this, lookupBr_cons, lookupBr_cons]
      by_cases hm : s = m
      · simp [hm]
      · rw [if_neg hm, if_neg hm, ih]

/-! ## C3 — repository open-or-init -/

/-- C3: `AddonGitRepository.git_repository` initializes a missing
repository with a root commit carrying an empty tree, zero parents, the
fixed automation identity as both author and committer and the fixed
message, placed on the default ref; an existing repository is opened
unchanged, so a second call yields a handle to the very same repository
with the same root commit identity. -/
theorem claim3_open_or_init :
    gitRepository none = initRepo ∧
    (∀ r : Repo, gitRepository (some r) = r) ∧
    gitRepository (some (gitRepository none)) = gitRepository none ∧
    initRepo.commits =
      [{ tree := []
         author := { name := "Mozilla Add-ons Robot"
                     email := "addons-dev-automation+github@mozilla.com" }
         committer := { name := "Mozilla Add-ons Robot"
                        email := "addons-dev-automation+github@mozilla.com" }
         message := "Initializing repository"
         parents := [] }] ∧
    initRepo.branches = [("master", 0)] ∧
    initRepo.headTarget = 0 :=
  ⟨rfl, fun _ => rfl, rfl, rfl, rfl, rfl⟩

/-! ## C4 — find-or-create branch -/

/-- C4: `find_or_create_branch` returns an existing branch unchanged and
otherwise creates the branch pointing at the repository's root/default
commit; it never mutates any existing branch's pointer.  In particular
(closed scenario) creating `unlisted` after two commits on `listed` yields
a branch whose next commit is parented on the root commit, with `listed`
left at its own tip. -/
theorem claim4_find_or_create_branch :
    (∀ (r : Repo) (name : String) (t : Nat),
      lookupBranch r name = some t → findOrCreateBranch r name = (r, t)) ∧
    (∀ (r : Repo) (name : String), lookupBranch r name = none →
      (findOrCreateBranch r name).2 = r.headTarget ∧
      lookupBranch (findOrCreateBranch r name).1 name = some r.headTarget) ∧
    (∀ (r : Repo) (name b : String) (t : Nat), lookupBranch r b = some t →
      lookupBranch (findOrCreateBranch r name).1 b = some t) ∧
    (lookupBranch (runSerial "listed" initRepo [callA, callA]) "unlisted"
        = none ∧
      (findOrCreateBranch (runSerial "listed" initRepo [callA, callA])
          "unlisted").2 = 0 ∧
      ((materializeRevision (okWorld callA)
            (runSerial "listed" initRepo [callA, callA])
            "unlisted" "rev u" none).repo.commits.get? 3).map Commit.parents
        = some [0] ∧
      lookupBranch (materializeRevision (okWorld callA)
            (runSerial "listed" initRepo [callA, callA])
            "unlisted" "rev u" none).repo "listed" = some 2) := by
  refine ⟨?_, ?_, ?_, ?_, ?_, ?_, ?_⟩
  · intro r name t h
    simp [findOrCreateBranch, h]
  · intro r name h
    refine ⟨by simp [findOrCreateBranch, h], ?_⟩
    simp only [findOrCreateBranch, h]
    exact lookupBr_append_of_none _ h
  · intro r name b t h
    unfold findOrCreateBranch
    cases hn : lookupBranch r name with
    | some v => simpa using h
    | none =>
      by_cases hb : b = name
      · rw [hb] at h
        rw [h] at hn
        exact absurd hn (by simp)
      · simpa [lookupBranch] using (lookupBr_append_of_ne _ hb).trans h
  · decide
  · decide
  · decide
  · decide

/-- C4 witness: the general branch lemmas applied at the initial
repository's `master` branch and at a missing `listed` branch. -/
theorem claim4_witness :
    findOrCreateBranch initRepo "master" = (initRepo, 0) ∧
    lookupBranch (findOrCreateBranch initRepo "listed").1 "listed"
      = some 0 :=
  ⟨claim4_find_or_create_branch.1 initRepo "master" 0 (by decide),
   (claim4_find_or_create_branch.2.1 initRepo "listed" (by decide)).2⟩

/-! ## C8 — tree traversal -/

/-- C8: `iter_tree` emits, for each entry of the tree in the tree's stored
(canonical) order, the entry itself — a file with its blob handle, a
directory with no blob handle — and, for a directory, immediately after it
the directory's own depth-first traversal with every child path prefixed by
the directory name, so that every emitted path is relative to the traversal
root.  Being a pure function of the (immutable) tree, re-invocation yields
the same finite sequence. -/
theorem claim8_iter_tree (es : List (String × GitObj)) :
    iterTree es = es.flatMap (fun e =>
      match e with
      | (n, GitObj.blob c) => [{ name := n, path := n, blob := some c }]
      | (n, GitObj.tree children) =>
        { name := n, path := n, blob := none }
          :: (iterTree children).map
              (fun w => { w with path := n ++ "/" ++ w.path })) := by
  induction es with
  | nil => simp [iterTree]
  | cons e rest ih =>
    obtain ⟨n, o⟩ := e
    cases o with
    | blob c => simp [iterTree, ih]
    | tree children => simp [iterTree, ih]

/-! ## C9 — locale restoration -/

/-- C9: `extract_and_commit_from_version` restores the process-global
translation state to its prior value on every exit path — success or any
pipeline error — leaving no global formatting state mutated on exit. -/
theorem claim9_locale_restored (w : WorldStep) (onDisk : Option Repo)
    (channel message : String) (author : Option UserProfile)
    (st : TransState) :
    (extractAndCommitFromVersion w onDisk channel message author st).2
      = st := by
  unfold extractAndCommitFromVersion
  split <;> rfl

/-! ## C10 — reading the extraction root -/

/-- C10: `get_root_tree` returns the subtree below the reserved `extracted`
entry of the commit's tree, and raises a key-lookup error for every commit
whose tree has no entry named `extracted` — in particular for the root
commit, whose tree is empty. -/
theorem claim10_get_root_tree :
    (∀ c : Commit, (∀ p ∈ c.tree, p.head? ≠ some "extracted") →
      getRootTree c = Except.error ()) ∧
    getRootTree rootCommit = Except.error () ∧
    (∀ (c : Commit) (fs : FS), getRootTree c = Except.ok fs →
      ∀ p : Path, p ∈ fs ↔ "extracted" :: p ∈ c.tree) := by
  refine ⟨?_, rfl, ?_⟩
  · intro c h
    rw [getRootTree, if_neg]
    simp only [List.any_eq_true, beq_iff_eq, not_exists, not_and]
    intro p hp
    exact h p hp
  · intro c fs h p
    rw [getRootTree] at h
    by_cases hc : c.tree.any (fun p => p.head? == some "extracted") = true
    · rw [if_pos hc] at h
      have hfs : fs =
          (c.tree.filter (fun p => p.head? == some "extracted")).map
            List.tail := by
        cases h
        rfl
      subst hfs
      simp only [List.mem_map, List.mem_filter, beq_iff_eq]
      constructor
      · rintro ⟨q, ⟨hq, hhead⟩, rfl⟩
        cases q with
        | nil => simp at hhead
        | cons a as =>
          obtain rfl : a = "extracted" := by simpa using hhead
          simpa using hq
      · intro hmem
        exact ⟨"extracted" :: p, ⟨hmem, rfl⟩, rfl⟩
    · rw [if_neg hc] at h
      cases h

/-- C10 witness: the failure branch evaluated at the root commit. -/
theorem claim10_witness : getRootTree rootCommit = Except.error () :=
  claim10_get_root_tree.1 rootCommit (by decide)

/-! ## Inversion and evaluation of the worktree body -/

theorem worktreeBody_ok {w : WorldStep} {r : Repo} {message : String}
    {author : Option UserProfile} {branch : String} {r1 : Repo} {oid : Nat}
    (hb : worktreeBody w r message author branch = Except.ok (r1, oid)) :
    ∃ (files : List Path) (fsF : FS) (parent : Nat),
      w.extracted = some files ∧
      sanitize w.uuidHex 0 (files.map (fun f => "extracted" :: f))
        (allEntries (files.map (fun f => "extracted" :: f))) = some fsF ∧
      w.stageOk = true ∧ w.commitOk = true ∧
      lookupBranch r branch = some parent ∧
      oid = r.commits.length ∧
      r1 = setBranchTarget
        { r with commits := r.commits ++
            [{ tree := fsF
               author := getAuthor author
               committer := getAuthor none
               message := message
               parents := [parent] }] }
        branch r.commits.length := by
  unfold worktreeBody at hb
  cases hx : w.extracted with
  | none =>
    rw [hx] at hb
    exact Except.noConfusion hb
  | some files =>
    simp only [hx] at hb
    cases hs : sanitize w.uuidHex 0 (files.map (fun f => "extracted" :: f))
        (allEntries (files.map (fun f => "extracted" :: f))) with
    | none =>
      rw [hs] at hb
      exact Except.noConfusion hb
    | some fsF =>
      simp only [hs] at hb
      by_cases hst : w.stageOk = false
      · rw [if_pos hst] at hb
        exact Except.noConfusion hb
      · simp only [if_neg hst] at hb
        cases hlb : lookupBranch r branch with
        | none =>
          rw [hlb] at hb
          exact Except.noConfusion hb
        | some parent =>
          simp only [hlb] at hb
          by_cases hco : w.commitOk = false
          · rw [if_pos hco] at hb
            exact Except.noConfusion hb
          · simp only [if_neg hco] at hb
            have hst2 : w.stageOk = true := by
              revert hst
              cases w.stageOk <;> simp
            have hco2 : w.commitOk = true := by
              revert hco
              cases w.commitOk <;> simp
            obtain ⟨hr1, hoid⟩ := Prod.ext_iff.mp (Except.ok.inj hb)
            exact ⟨files, fsF, parent, rfl, hs, hst2, hco2, rfl,
              hoid.symm, hr1.symm⟩

theorem worktreeBody_eq_ok {w : WorldStep} {r : Repo} {message : String}
    {author : Option UserProfile} {branch : String} {files : List Path}
    {fsF : FS} {parent : Nat}
    (hx : w.extracted = some files)
    (hs : sanitize w.uuidHex 0 (files.map (fun f => "extracted" :: f))
      (allEntries (files.map (fun f => "extracted" :: f))) = some fsF)
    (hst : w.stageOk = true) (hco : w.commitOk = true)
    (hbr : lookupBranch r branch = some parent) :
    worktreeBody w r message author branch =
      Except.ok (setBranchTarget
        { r with commits := r.commits ++
            [{ tree := fsF
               author := getAuthor author
               committer := getAuthor none
               message := message
               parents := [parent] }] }
        branch r.commits.length, r.commits.length) := by
  simp [worktreeBody, hx, hs, hst, hco, hbr]

/-! ## C7 — author and committer identities -/

/-- C7: every commit created through the worktree carries the fixed service
identity as committer, and as author the uploading user's identity when one
was supplied, else the same fixed service identity. -/
theorem claim7_identities (w : WorldStep) (r : Repo) (message : String)
    (author : Option UserProfile) (branch : String) (oid : Nat)
    (h : (commitThroughWorktree w r message author branch).result
      = Except.ok oid) :
    ∃ c : Commit,
      (commitThroughWorktree w r message author branch).repo.commits.get?
          oid = some c ∧
      c.committer = { name := "Mozilla Add-ons Robot"
                      email := "addons-dev-automation+github@mozilla.com" } ∧
      (∀ u : UserProfile, author = some u →
        c.author = { name := u.name, email := u.email }) ∧
      (author = none →
        c.author = { name := "Mozilla Add-ons Robot"
                     email := "addons-dev-automation+github@mozilla.com" })
    := by
  cases hb : worktreeBody w r message author branch with
  | error e =>
    simp only [commitThroughWorktree, hb] at h
    cases hcl : w.cleanupOk <;> simp [hcl] at h
  | ok pr =>
    obtain ⟨r1, noid⟩ := pr
    simp only [commitThroughWorktree, hb] at h ⊢
    cases hcl : w.cleanupOk with
    | false => simp [hcl] at h
    | true =>
      simp only [hcl, if_true] at h ⊢
      obtain rfl : noid = oid := by simpa using h
      obtain ⟨files, fsF, parent, hx, hs, hst, hco, hlb, hoid, hr1⟩ :=
        worktreeBody_ok hb
      subst hr1
      subst hoid
      refine ⟨{ tree := fsF
                author := getAuthor author
                committer := getAuthor none
                message := message
                parents := [parent] }, ?_, rfl, ?_, ?_⟩
      · exact get?_snoc r.commits _
      · intro u hu
        rw [hu]
        rfl
      · intro hu
        rw [hu]
        rfl

/-- C7 witness: a successful run with no supplied author yields the robot
identity in both fields. -/
theorem claim7_witness :
    ∃ c : Commit,
      (commitThroughWorktree (okWorld callA) repoListed "rev 1" none
          "listed").repo.commits.get? 1 = some c ∧
      c.committer = { name := "Mozilla Add-ons Robot"
                      email := "addons-dev-automation+github@mozilla.com" } ∧
      (∀ u : UserProfile, (none : Option UserProfile) = some u →
        c.author = { name := u.name, email := u.email }) ∧
      ((none : Option UserProfile) = none →
        c.author = { name := "Mozilla Add-ons Robot"
                     email := "addons-dev-automation+github@mozilla.com" }) :=
  claim7_identities (okWorld callA) repoListed "rev 1" none "listed" 1 rfl

/-! ## C2 — failures surface, sandbox released, branch untouched -/

/-- C2: when extraction, staging (the tree write) or commit-object creation
fails inside `materialize_revision`, the corresponding error is surfaced to
the caller, the sandbox is nevertheless released, and the repository — in
particular the target channel branch's pointer — is left exactly as it was:
the branch pointer update is the last step of the body, so no partial
commit ever becomes visible on the branch. -/
theorem claim2_error_paths (w : WorldStep) (r : Repo) (message : String)
    (author : Option UserProfile) (channel : String) (t : Nat)
    (hcl : w.cleanupOk = true) (hbr : lookupBranch r channel = some t) :
    (w.extracted = none →
      materializeRevision w r channel message author =
        { result := Except.error GitError.extraction, repo := r,
          released := true }) ∧
    (∀ files : List Path, w.extracted = some files → w.stageOk = false →
      (∃ fsF : FS,
        sanitize w.uuidHex 0 (files.map (fun f => "extracted" :: f))
          (allEntries (files.map (fun f => "extracted" :: f)))
          = some fsF) →
      materializeRevision w r channel message author =
        { result := Except.error GitError.staging, repo := r,
          released := true }) ∧
    (∀ files : List Path, w.extracted = some files →
      w.stageOk = true → w.commitOk = false →
      (∃ fsF : FS,
        sanitize w.uuidHex 0 (files.map (fun f => "extracted" :: f))
          (allEntries (files.map (fun f => "extracted" :: f)))
          = some fsF) →
      materializeRevision w r channel message author =
        { result := Except.error GitError.commitCreation, repo := r,
          released := true }) := by
  refine ⟨?_, ?_, ?_⟩
  · intro hx
    simp [materializeRevision, findOrCreateBranch, hbr,
      commitThroughWorktree, worktreeBody, hx, hcl]
  · rintro files hx hst ⟨fsF, hs⟩
    simp [materializeRevision, findOrCreateBranch, hbr,
      commitThroughWorktree, worktreeBody, hx, hs, hst, hcl]
  · rintro files hx hst hco ⟨fsF, hs⟩
    simp [materializeRevision, findOrCreateBranch, hbr,
      commitThroughWorktree, worktreeBody, hx, hs, hst, hco, hcl]

/-- C2 witness: the three failure modes evaluated on a repository with an
existing `listed` branch. -/
theorem claim2_witness :
    materializeRevision worldExtractFail repoListed "listed" "rev 1" none =
      { result := Except.error GitError.extraction, repo := repoListed,
        released := true } ∧
    materializeRevision worldStageFail repoListed "listed" "rev 1" none =
      { result := Except.error GitError.staging, repo := repoListed,
        released := true } ∧
    materializeRevision worldCommitFail repoListed "listed" "rev 1" none =
      { result := Except.error GitError.commitCreation, repo := repoListed,
        released := true } :=
  ⟨(claim2_error_paths worldExtractFail repoListed "rev 1" none "listed" 0
      rfl (by decide)).1 rfl,
   (claim2_error_paths worldStageFail repoListed "rev 1" none "listed" 0
      rfl (by decide)).2.1 [["manifest.json"]] rfl rfl
      ⟨[["extracted", "manifest.json"]], by decide⟩,
   (claim2_error_paths worldCommitFail repoListed "rev 1" none "listed" 0
      rfl (by decide)).2.2 [["manifest.json"]] rfl rfl rfl
      ⟨[["extracted", "manifest.json"]], by decide⟩⟩

/-! ## C6 — sandbox-release errors (corrected) -/

/-- C6 counterexample: a run on which everything succeeds except the
teardown.  The commit was fully created and the branch advanced to it, yet
the caller receives the cleanup error — so a cleanup failure does mask the
already-determined success and aborts an otherwise-successful commit,
contradicting the claim. -/
theorem claim6_counterexample :
    (commitThroughWorktree worldCleanupFail repoListed "rev 1" none
        "listed").result = Except.error GitError.cleanup ∧
    lookupBranch (commitThroughWorktree worldCleanupFail repoListed "rev 1"
        none "listed").repo "listed" = some 1 ∧
    ((commitThroughWorktree worldCleanupFail repoListed "rev 1" none
        "listed").repo.commits.get? 1).map Commit.message = some "rev 1" :=
  ⟨rfl, by decide, by decide⟩

/-- C6 (amended): `TemporaryWorktree.__exit__` performs no exception
handling and no logging, so an error during sandbox release propagates to
the caller as the operation's outcome, replacing whatever result the body
had already determined; a commit and branch update the body performed are
nevertheless not rolled back — the commit merely becomes invisible to the
caller. -/
theorem claim6_cleanup_error_propagates (w : WorldStep) (r : Repo)
    (message : String) (author : Option UserProfile) (branch : String)
    (hcl : w.cleanupOk = false) :
    (commitThroughWorktree w r message author branch).result
      = Except.error GitError.cleanup ∧
    (∀ (r1 : Repo) (oid : Nat),
      worktreeBody w r message author branch = Except.ok (r1, oid) →
      (commitThroughWorktree w r message author branch).repo = r1 ∧
      lookupBranch r1 branch = some oid) := by
  constructor
  · unfold commitThroughWorktree
    cases hb : worktreeBody w r message author branch with
    | ok pr => simp [hcl]
    | error e => simp [hcl]
  · intro r1 oid hb
    constructor
    · unfold commitThroughWorktree
      rw [hb]
      simp [hcl]
    · obtain ⟨files, fsF, parent, hx, hs, hst, hco, hlb, hoid, hr1⟩ :=
        worktreeBody_ok hb
      subst hr1
      subst hoid
      exact lookupBr_setBr_self _ hlb

/-- C6 witness for the amended statement: the cleanup-failure world applied
at a concrete successful body. -/
theorem claim6_witness :
    (commitThroughWorktree worldCleanupFail repoListed "rev 1" none
        "listed").result = Except.error GitError.cleanup :=
  (claim6_cleanup_error_propagates worldCleanupFail repoListed "rev 1" none
    "listed" rfl).1

/-! ## Enumeration and sanitisation basics -/

theorem mem_allEntries {fs : FS} {e : Path} :
    e ∈ allEntries fs ↔
      ∃ f, f ∈ fs ∧ ∃ n, n < f.length ∧ e = f.take (n + 1) := by
  constructor
  · intro h
    rw [allEntries, List.mem_dedup] at h
    obtain ⟨f, hf, he⟩ := List.mem_flatMap.mp h
    rw [initSegs] at he
    obtain ⟨n, hn, hne⟩ := List.mem_map.mp he
    exact ⟨f, hf, n, List.mem_range.mp hn, hne.symm⟩
  · rintro ⟨f, hf, n, hn, rfl⟩
    rw [allEntries, List.mem_dedup]
    refine List.mem_flatMap.mpr ⟨f, hf, ?_⟩
    rw [initSegs]
    exact List.mem_map.mpr ⟨n, List.mem_range.mpr hn, rfl⟩

theorem basename_take {f : Path} {n : Nat} (hn : n < f.length) :
    basename (f.take (n + 1)) = f.get? n := by
  rw [basename, List.getLast?_eq_get?]
  have hl : (f.take (n + 1)).length = n + 1 := by
    rw [List.length_take]
    omega
  rw [hl]
  simp only [Nat.add_sub_cancel]
  exact List.get?_take (by omega)

theorem no_git_basename {files : List Path}
    (h : ∀ f ∈ files, ".git" ∉ f) {e : Path}
    (he : e ∈ allEntries (files.map (fun f => "extracted" :: f))) :
    ¬ basename e = some ".git" := by
  intro hb
  obtain ⟨f0, hf0, n, hn, rfl⟩ := mem_allEntries.mp he
  rw [basename_take hn] at hb
  have hmem : ".git" ∈ f0 := List.get?_mem hb
  obtain ⟨g, hg, rfl⟩ := List.mem_map.mp hf0
  rcases List.mem_cons.mp hmem with h1 | h2
  · exact absurd h1 (by decide)
  · exact h g hg h2

theorem sanitize_of_no_git (u : Nat → String) (k : Nat) (fs : FS)
    (R : List Path) (h : ∀ e ∈ R, ¬ basename e = some ".git") :
    sanitize u k fs R = some fs := by
  induction R generalizing k with
  | nil => rfl
  | cons e es ih =>
    rw [sanitize, if_neg (h e (List.mem_cons_self e es))]
    exact ih _ (fun q hq => h q (List.mem_cons_of_mem e hq))

/-! ## C5 — serial calls build a linear history -/

theorem serial_step (channel : String) (ms : List String) (r : Repo)
    (c : CallSpec) (hS : SerialInv channel ms r)
    (hgit : ∀ f ∈ c.files, ".git" ∉ f) :
    SerialInv channel (ms ++ [c.message])
      (materializeRevision (okWorld c) r channel c.message
        c.author).repo := by
  obtain ⟨hlen, hhead, hroot, hmsg, hpar, hbr⟩ := hS
  -- the repository and branch after find-or-create
  obtain ⟨rb, hrb_eq, hrb_commits, hrb_head, hrb_branches, hrb_lookup⟩ :
      ∃ rb : Repo, (findOrCreateBranch r channel).1 = rb ∧
        rb.commits = r.commits ∧ rb.headTarget = r.headTarget ∧
        (rb.branches = r.branches ∨
          rb.branches = r.branches ++ [(channel, r.headTarget)]) ∧
        lookupBranch rb channel = some ms.length := by
    rcases hbr with hbr1 | ⟨hms, hbr2⟩
    · exact ⟨r, by simp [findOrCreateBranch, hbr1], rfl, rfl, Or.inl rfl,
        hbr1⟩
    · refine ⟨{ r with branches :=
          r.branches ++ [(channel, r.headTarget)] },
        by simp [findOrCreateBranch, hbr2], rfl, rfl, Or.inr rfl, ?_⟩
      subst hms
      show lookupBr (r.branches ++ [(channel, r.headTarget)]) channel
        = some 0
      rw [lookupBr_append_of_none _ hbr2, hhead]
  -- sanitisation succeeds (no `.git` anywhere)
  have hsan : sanitize (okWorld c).uuidHex 0
      (c.files.map (fun f => "extracted" :: f))
      (allEntries (c.files.map (fun f => "extracted" :: f)))
      = some (c.files.map (fun f => "extracted" :: f)) :=
    sanitize_of_no_git _ _ _ _ (fun e he => no_git_basename hgit he)
  have hbody := @worktreeBody_eq_ok (okWorld c) rb c.message c.author
    channel c.files (c.files.map (fun f => "extracted" :: f)) ms.length
    rfl hsan rfl rfl hrb_lookup
  have hrepo : (materializeRevision (okWorld c) r channel c.message
      c.author).repo
      = setBranchTarget
          { rb with commits := rb.commits ++
              [{ tree := c.files.map (fun f => "extracted" :: f)
                 author := getAuthor c.author
                 committer := getAuthor none
                 message := c.message
                 parents := [ms.length] }] }
          channel rb.commits.length := by
    simp only [materializeRevision]
    rw [hrb_eq]
    simp only [commitThroughWorktree]
    rw [hbody]
    rfl
  rw [hrepo]
  have hclen : rb.commits.length = ms.length + 1 := by
    rw [hrb_commits, hlen]
  refine ⟨?_, ?_, ?_, ?_, ?_, ?_⟩
  · show (rb.commits ++ [_]).length = (ms ++ [c.message]).length + 1
    simp [hclen]
  · exact hrb_head.trans hhead
  · show (rb.commits ++ [_]).get? 0 = some rootCommit
    rw [List.get?_append (by omega), hrb_commits]
    exact hroot
  · intro i
    show ((rb.commits ++ [_]).get? (i + 1)).map Commit.message
      = (ms ++ [c.message]).get? i
    rcases Nat.lt_trichotomy i ms.length with hi | hi | hi
    · rw [List.get?_append (by omega), List.get?_append (by omega),
        hrb_commits]
      exact hmsg i
    · subst hi
      rw [show ms.length + 1 = rb.commits.length from hclen.symm,
        get?_snoc, get?_snoc ms c.message]
      rfl
    · rw [List.get?_eq_none.mpr (by simp; omega),
        List.get?_eq_none.mpr (by simp; omega)]
      rfl
  · intro i
    show ((rb.commits ++ [_]).get? (i + 1)).map Commit.parents
      = ((ms ++ [c.message]).get? i).map (fun _ => [i])
    rcases Nat.lt_trichotomy i ms.length with hi | hi | hi
    · rw [List.get?_append (by omega), List.get?_append (by omega),
        hrb_commits]
      exact hpar i
    · subst hi
      rw [show ms.length + 1 = rb.commits.length from hclen.symm,
        get?_snoc, get?_snoc ms c.message]
      rfl
    · rw [List.get?_eq_none.mpr (by simp; omega),
        List.get?_eq_none.mpr (by simp; omega)]
      rfl
  · left
    show lookupBr (setBr rb.branches channel rb.commits.length) channel
      = some (ms ++ [c.message]).length
    rw [lookupBr_setBr_self _ hrb_lookup, hclen]
    simp

theorem serial_run (channel : String) (cs : List CallSpec) :
    ∀ (ms : List String) (r : Repo), SerialInv channel ms r →
    (∀ c ∈ cs, ∀ f ∈ c.files, ".git" ∉ f) →
    SerialInv channel (ms ++ cs.map CallSpec.message)
      (runSerial channel r cs) := by
  induction cs with
  | nil =>
    intro ms r h _
    simpa [runSerial] using h
  | cons c cs ih =>
    intro ms r h hg
    rw [runSerial]
    have hstep := serial_step channel ms r c h
      (hg c (List.mem_cons_self c cs))
    have := ih (ms ++ [c.message]) _ hstep
      (fun q hq => hg q (List.mem_cons_of_mem c hq))
    simpa [List.append_assoc] using this

theorem historyFrom_chain (r : Repo)
    (hroot : (r.commits.get? 0).map Commit.parents = some [])
    (hpar : ∀ i : Nat, i + 1 < r.commits.length →
      (r.commits.get? (i + 1)).map Commit.parents = some [i]) :
    ∀ (t fuel : Nat), t < r.commits.length → t < fuel →
      historyFrom r fuel t = (List.range (t + 1)).reverse := by
  intro t
  induction t with
  | zero =>
    intro fuel _ hf
    obtain ⟨fuel, rfl⟩ : ∃ m, fuel = m + 1 :=
      ⟨fuel - 1, by omega⟩
    rw [historyFrom]
    cases hc : r.commits.get? 0 with
    | none =>
      rw [hc] at hroot
      simp at hroot
    | some c0 =>
      rw [hc] at hroot
      have : c0.parents = [] := by simpa using hroot
      simp [this]
      decide
  | succ t iht =>
    intro fuel ht hf
    obtain ⟨fuel, rfl⟩ : ∃ m, fuel = m + 1 :=
      ⟨fuel - 1, by omega⟩
    rw [historyFrom]
    cases hc : r.commits.get? (t + 1) with
    | none =>
      have := hpar t ht
      rw [hc] at this
      simp at this
    | some ct =>
      have hp : ct.parents = [t] := by
        have := hpar t ht
        rw [hc] at this
        simpa using this
      have hrec : historyFrom r fuel t = (List.range (t + 1)).reverse :=
        iht fuel (by omega) (by omega)
      simp only [Option.map_some', hp, hrec]
      rw [List.range_succ (n := t + 1)]
      simp

/-- C5: issuing `N` successful `materialize_revision` calls serially on one
channel of a fresh repository yields exactly `N` non-root commits: commit
`i + 1` is parented precisely on commit `i`, carries the `i`-th requested
message, the branch ends at the tip, and the branch history is the linear
chain from the tip back to the root commit. -/
theorem claim5_serial_linear_history (calls : List CallSpec)
    (hg : ∀ c ∈ calls, ∀ f ∈ c.files, ".git" ∉ f) :
    (runSerial "listed" initRepo calls).commits.length
      = calls.length + 1 ∧
    (runSerial "listed" initRepo calls).commits.get? 0 = some rootCommit ∧
    (∀ i : Nat,
      ((runSerial "listed" initRepo calls).commits.get? (i + 1)).map
        Commit.message = (calls.map CallSpec.message).get? i) ∧
    (∀ i : Nat,
      ((runSerial "listed" initRepo calls).commits.get? (i + 1)).map
        Commit.parents
        = ((calls.map CallSpec.message).get? i).map (fun _ => [i])) ∧
    (calls ≠ [] →
      lookupBranch (runSerial "listed" initRepo calls) "listed"
        = some calls.length ∧
      branchHistory (runSerial "listed" initRepo calls) "listed"
        = (List.range (calls.length + 1)).reverse) := by
  have hinit : SerialInv "listed" [] initRepo := by
    refine ⟨rfl, rfl, rfl, ?_, ?_, Or.inr ⟨rfl, by decide⟩⟩
    · intro i
      rfl
    · intro i
      rfl
  have hrun := serial_run "listed" calls [] initRepo hinit hg
  rw [List.nil_append] at hrun
  obtain ⟨hlen, hhead, hroot, hmsg, hpar, hbr⟩ := hrun
  have hmlen : (calls.map CallSpec.message).length = calls.length :=
    List.length_map _ _
  refine ⟨by rw [hlen, hmlen], hroot, hmsg, hpar, ?_⟩
  intro hne
  have hsome : lookupBranch (runSerial "listed" initRepo calls) "listed"
      = some calls.length := by
    rcases hbr with h | ⟨hnil, _⟩
    · rw [h, hmlen]
    · exact absurd (List.map_eq_nil_iff.mp hnil) hne
  refine ⟨hsome, ?_⟩
  simp only [branchHistory, hsome]
  have hparents : ∀ i : Nat,
      i + 1 < (runSerial "listed" initRepo calls).commits.length →
      ((runSerial "listed" initRepo calls).commits.get? (i + 1)).map
        Commit.parents = some [i] := by
    intro i hi
    rw [hpar i]
    have : i < (calls.map CallSpec.message).length := by
      rw [hmlen]
      rw [hlen, hmlen] at hi
      omega
    rw [List.get?_eq_get this]
    rfl
  have hrootpar :
      ((runSerial "listed" initRepo calls).commits.get? 0).map
        Commit.parents = some [] := by
    rw [hroot]
    rfl
  have := historyFrom_chain _ hrootpar hparents calls.length
    (runSerial "listed" initRepo calls).commits.length
    (by rw [hlen, hmlen]; omega) (by rw [hlen, hmlen]; omega)
  rw [this]

/-- C5 witness: two successful serial calls on `listed`. -/
theorem claim5_witness :
    (runSerial "listed" initRepo [callA, callA]).commits.length = 3 ∧
    ([callA, callA] ≠ [] →
      lookupBranch (runSerial "listed" initRepo [callA, callA]) "listed"
        = some 2 ∧
      branchHistory (runSerial "listed" initRepo [callA, callA]) "listed"
        = (List.range 3).reverse) :=
  ⟨(claim5_serial_linear_history [callA, callA] (by decide)).1,
   (claim5_serial_linear_history [callA, callA] (by decide)).2.2.2.2⟩

/-! ## C1 — path and rename infrastructure -/

theorem isInitSeg_iff {p f : Path} :
    isInitSeg p f = true ↔ f.take p.length = p := by
  simp [isInitSeg]

theorem isInitSeg_take (f : Path) (m : Nat) :
    isInitSeg (f.take m) f = true := by
  rw [isInitSeg_iff, List.length_take]
  rcases Nat.le_total m f.length with h | h
  · rw [Nat.min_eq_left h]
  · rw [Nat.min_eq_right h, List.take_length, List.take_of_length_le h]

theorem length_le_of_isInitSeg {p f : Path} (h : isInitSeg p f = true) :
    p.length ≤ f.length := by
  rw [isInitSeg_iff] at h
  have := congrArg List.length h
  rw [List.length_take] at this
  omega

theorem ne_nil_of_basename {p : Path} {x : Seg}
    (h : basename p = some x) : p ≠ [] := by
  intro hc
  subst hc
  exact Option.noConfusion h

theorem basename_of_isInitSeg {p f : Path} (h : isInitSeg p f = true)
    (hne : p ≠ []) : basename p = f.get? (p.length - 1) := by
  have hlen : p.length ≤ f.length := length_le_of_isInitSeg h
  have hpos : 0 < p.length := List.length_pos.mpr hne
  obtain ⟨n, hn⟩ : ∃ n, p.length = n + 1 := ⟨p.length - 1, by omega⟩
  rw [isInitSeg_iff] at h
  calc basename p = basename (f.take p.length) := by rw [h]
    _ = f.get? (p.length - 1) := by
        rw [hn, basename_take (by omega), Nat.add_sub_cancel]

theorem get?_of_initSeg_git {e f : Path} (hinit : isInitSeg e f = true)
    (hene : e ≠ []) (hgit : basename e = some ".git") :
    f.get? (e.length - 1) = some ".git" := by
  rw [← basename_of_isInitSeg hinit hene]
  exact hgit

theorem git_unique {f : Path} (hone : f.count ".git" ≤ 1) {n m : Nat}
    (hn : f.get? n = some ".git") (hm : f.get? m = some ".git") :
    n = m := by
  induction f generalizing n m with
  | nil => exact Option.noConfusion hn
  | cons a t ih =>
    have hone' : t.count ".git" ≤ 1 := by
      have := List.count_cons ".git" a t
      omega
    cases n with
    | zero =>
      cases m with
      | zero => rfl
      | succ m =>
        exfalso
        obtain rfl : a = ".git" := by simpa using hn
        have hmem : ".git" ∈ t := List.get?_mem (by simpa using hm)
        have h1 : 1 ≤ t.count ".git" := List.one_le_count_iff.mpr hmem
        rw [List.count_cons_self] at hone
        omega
    | succ n =>
      cases m with
      | zero =>
        exfalso
        obtain rfl : a = ".git" := by simpa using hm
        have hmem : ".git" ∈ t := List.get?_mem (by simpa using hn)
        have h1 : 1 ≤ t.count ".git" := List.one_le_count_iff.mpr hmem
        rw [List.count_cons_self] at hone
        omega
      | succ m =>
        have : n = m := ih hone' (by simpa using hn) (by simpa using hm)
        omega

theorem gitIdx_eq_none_iff {f : Path} :
    gitIdx f = none ↔ ∀ n : Nat, f.get? n ≠ some ".git" := by
  induction f with
  | nil =>
    constructor
    · intro _ n h
      exact Option.noConfusion h
    · intro _
      rfl
  | cons a t ih =>
    rw [gitIdx]
    by_cases ha : a = ".git"
    · rw [if_pos ha]
      constructor
      · intro h
        exact Option.noConfusion h
      · intro h
        exact absurd (by simpa using ha : (a :: t).get? 0 = some ".git")
          (h 0)
    · rw [if_neg ha]
      rw [Option.map_eq_none', ih]
      constructor
      · intro h n
        cases n with
        | zero => simpa using ha
        | succ n => exact h n
      · intro h n
        exact h (n + 1)

theorem gitIdx_eq_some {f : Path} {n : Nat} (h : gitIdx f = some n) :
    f.get? n = some ".git" := by
  induction f generalizing n with
  | nil => exact Option.noConfusion h
  | cons a t ih =>
    rw [gitIdx] at h
    by_cases ha : a = ".git"
    · rw [if_pos ha] at h
      obtain rfl : 0 = n := by simpa using h
      simpa using ha
    · rw [if_neg ha] at h
      obtain ⟨m, hm, rfl⟩ := Option.map_eq_some'.mp h
      simpa using ih hm

theorem gitIdx_of_get? {f : Path} (hone : f.count ".git" ≤ 1) {n : Nat}
    (h : f.get? n = some ".git") : gitIdx f = some n := by
  cases hg : gitIdx f with
  | none => exact absurd h (gitIdx_eq_none_iff.mp hg n)
  | some m => rw [git_unique hone (gitIdx_eq_some hg) h]

theorem lt_length_of_get?_git {f : Path} {n : Nat}
    (h : f.get? n = some ".git") : n < f.length := by
  obtain ⟨hlt, _⟩ := List.get?_eq_some.mp h
  exact hlt

theorem get?_renameAt_self {f : Path} {n : Nat} (v : Seg)
    (hn : n < f.length) : (renameAt f n v).get? n = some v := by
  have h1 : (f.take n).length = n := by
    rw [List.length_take]
    omega
  rw [renameAt, List.get?_append_right (by omega), h1]
  simp

theorem get?_renameAt_ne {f : Path} {n m : Nat} (v : Seg)
    (hn : n < f.length) (hm : m ≠ n) :
    (renameAt f n v).get? m = f.get? m := by
  have h1 : (f.take n).length = n := by
    rw [List.length_take]
    omega
  rcases Nat.lt_or_ge m n with h | h
  · rw [renameAt, List.get?_append (by omega), List.get?_take (by omega)]
  · have h2 : n < m := by omega
    rw [renameAt, List.get?_append_right (by omega), h1]
    obtain ⟨k, hk⟩ : ∃ k, m - n = k + 1 := ⟨m - n - 1, by omega⟩
    rw [hk]
    show (f.drop (n + 1)).get? k = f.get? m
    rw [List.get?_drop]
    congr 1
    omega

theorem take_renameAt_succ {f : Path} {n : Nat} (v : Seg)
    (hn : n < f.length) :
    (renameAt f n v).take (n + 1) = f.take n ++ [v] := by
  have h1 : (f.take n).length = n := by
    rw [List.length_take]
    omega
  rw [renameAt, List.take_append_eq_append_take, h1, List.take_take,
    Nat.min_eq_right (by omega)]
  have h2 : n + 1 - n = 1 := by omega
  rw [h2]
  rfl

theorem dropLast_take_succ {f : Path} {n : Nat} (hn : n < f.length) :
    (f.take (n + 1)).dropLast = f.take n := by
  rw [List.dropLast_eq_take, List.length_take, List.take_take]
  have : min (n + 1) f.length - 1 = n := by omega
  rw [this]
  rw [Nat.min_eq_left (by omega)]

theorem applyRen_bot (f : Path) : applyRen (fun _ => none) f = f := by
  unfold applyRen
  split <;> rfl

theorem applyRen_none {σ : Path → Option String} {f : Path}
    (hg : gitIdx f = none) : applyRen σ f = f := by
  unfold applyRen
  rw [hg]

theorem applyRen_some {σ : Path → Option String} {f : Path} {n : Nat}
    (hg : gitIdx f = some n) :
    applyRen σ f = (match σ (f.take (n + 1)) with
      | none => f
      | some s => renameAt f n (".git." ++ s)) := by
  unfold applyRen
  rw [hg]

/-- One `shutil.move` of the sanitisation loop, seen through the ghost
rename record: moving the not-yet-renamed `.git` entry `e` extends the
record at `e` and leaves every other file's transformation unchanged. -/
theorem applyRen_move_step {σ : Path → Option String} {e : Path}
    {s' : String} (f : Path) (hone : f.count ".git" ≤ 1)
    (hgit : basename e = some ".git") (hene : e ≠ [])
    (hσe : σ e = none) :
    movePath e (gitRename e s') (applyRen σ f)
      = applyRen (fun q => if q = e then some s' else σ q) f := by
  cases hg : gitIdx f with
  | none =>
    have h1 : applyRen σ f = f := applyRen_none hg
    have h2 : applyRen (fun q => if q = e then some s' else σ q) f = f :=
      applyRen_none hg
    have hninit : isInitSeg e f = false := by
      cases hinit : isInitSeg e f with
      | false => rfl
      | true =>
        exfalso
        exact gitIdx_eq_none_iff.mp hg _
          (get?_of_initSeg_git hinit hene hgit)
    rw [h1, h2]
    simp [movePath, hninit]
  | some n =>
    have hfn : f.get? n = some ".git" := gitIdx_eq_some hg
    have hnlt : n < f.length := lt_length_of_get?_git hfn
    by_cases hpe : f.take (n + 1) = e
    · have h1 : applyRen σ f = f := by
        rw [applyRen_some hg, hpe, hσe]
      have h2 : applyRen (fun q => if q = e then some s' else σ q) f
          = renameAt f n (".git." ++ s') := by
        rw [applyRen_some hg, hpe]
        simp
      rw [h1, h2]
      have hinit : isInitSeg e f = true := hpe ▸ isInitSeg_take f (n + 1)
      have hel : e.length = n + 1 := by
        rw [← hpe, List.length_take]
        omega
      simp only [movePath, hinit, if_true]
      rw [gitRename, renameAt, hel, ← hpe, dropLast_take_succ hnlt]
      simp
    · cases hσp : σ (f.take (n + 1)) with
      | none =>
        have h1 : applyRen σ f = f := by
          rw [applyRen_some hg, hσp]
        have h2 : applyRen (fun q => if q = e then some s' else σ q) f
            = f := by
          rw [applyRen_some hg]
          simp [hpe, hσp]
        rw [h1, h2]
        have hninit : isInitSeg e f = false := by
          cases hinit : isInitSeg e f with
          | false => rfl
          | true =>
            exfalso
            have hfp := get?_of_initSeg_git hinit hene hgit
            have hepos : 0 < e.length := List.length_pos.mpr hene
            have hn2 := git_unique hone hfp hfn
            apply hpe
            rw [show n + 1 = e.length from by omega]
            exact isInitSeg_iff.mp hinit
        simp [movePath, hninit]
      | some s2 =>
        have h1 : applyRen σ f = renameAt f n (".git." ++ s2) := by
          rw [applyRen_some hg, hσp]
        have h2 : applyRen (fun q => if q = e then some s' else σ q) f
            = renameAt f n (".git." ++ s2) := by
          rw [applyRen_some hg]
          simp [hpe, hσp]
        rw [h1, h2]
        have hninit : isInitSeg e (renameAt f n (".git." ++ s2))
            = false := by
          cases hinit : isInitSeg e (renameAt f n (".git." ++ s2)) with
          | false => rfl
          | true =>
            exfalso
            have hfp := get?_of_initSeg_git hinit hene hgit
            have hepos : 0 < e.length := List.length_pos.mpr hene
            by_cases hm : e.length - 1 = n
            · rw [hm, get?_renameAt_self _ hnlt] at hfp
              have hl := congrArg String.length (Option.some.inj hfp)
              rw [String.length_append] at hl
              have h5 : (".git." : String).length = 5 := by decide
              have h4 : (".git" : String).length = 4 := by decide
              omega
            · rw [get?_renameAt_ne _ hnlt hm] at hfp
              exact hm (git_unique hone hfp hfn)
        simp [movePath, hninit]

/-- The sanitisation loop, run on any still-unprocessed tail `R` of the
enumeration: it succeeds, and the final tree is the original tree
transformed by a rename record that covers every `.git` entry of `R` and
whose suffixes all are 8-character prefixes of `uuid4().hex` draws. -/
theorem sanitize_ghost (u : Nat → String) (fs0 : FS)
    (hone : ∀ f ∈ fs0, f.count ".git" ≤ 1) :
    ∀ (R : List Path) (k : Nat) (σ : Path → Option String),
    R.Nodup →
    (∀ e ∈ R, e ∈ allEntries fs0) →
    (∀ e ∈ R, basename e = some ".git" → σ e = none) →
    ∃ σf : Path → Option String,
      sanitize u k (fs0.map (applyRen σ)) R
        = some (fs0.map (applyRen σf)) ∧
      (∀ e s, σ e = some s → σf e = some s) ∧
      (∀ e ∈ R, basename e = some ".git" →
        ∃ j, σf e = some ((u j).take 8)) ∧
      (∀ e s, σf e = some s → σ e = some s ∨ ∃ j, s = (u j).take 8) := by
  intro R
  induction R with
  | nil =>
    intro k σ _ _ _
    exact ⟨σ, rfl, fun e s h => h, by simp, fun e s h => Or.inl h⟩
  | cons e R ih =>
    intro k σ hnd hmem hfresh
    by_cases hgit : basename e = some ".git"
    case neg =>
      rw [sanitize, if_neg hgit]
      obtain ⟨σf, h1, h2, h3, h4⟩ := ih k σ (List.nodup_cons.mp hnd).2
        (fun q hq => hmem q (List.mem_cons_of_mem _ hq))
        (fun q hq hq2 => hfresh q (List.mem_cons_of_mem _ hq) hq2)
      refine ⟨σf, h1, h2, ?_, h4⟩
      intro q hq hq2
      rcases List.mem_cons.mp hq with rfl | hq'
      · exact absurd hq2 hgit
      · exact h3 q hq' hq2
    case pos =>
      have heA : e ∈ allEntries fs0 := hmem e (List.mem_cons_self e R)
      obtain ⟨f0, hf0, n0, hn0, hef⟩ := mem_allEntries.mp heA
      have hene : e ≠ [] := ne_nil_of_basename hgit
      have hσe : σ e = none := hfresh e (List.mem_cons_self e R) hgit
      have hfn : f0.get? n0 = some ".git" := by
        rw [← basename_take hn0, ← hef]
        exact hgit
      have hidx : gitIdx f0 = some n0 := gitIdx_of_get? (hone f0 hf0) hfn
      have hentry : isEntry (fs0.map (applyRen σ)) e = true := by
        rw [isEntry, List.any_eq_true]
        refine ⟨applyRen σ f0, List.mem_map_of_mem _ hf0, ?_⟩
        have happ : applyRen σ f0 = f0 := by
          rw [applyRen_some hidx, ← hef, hσe]
        rw [happ, hef]
        exact isInitSeg_take f0 (n0 + 1)
      rw [sanitize, if_pos hgit, if_pos hentry]
      have hmap : (fs0.map (applyRen σ)).map
            (movePath e (gitRename e ((u k).take 8)))
          = fs0.map
              (applyRen (fun q => if q = e
                then some ((u k).take 8) else σ q)) := by
        rw [List.map_map]
        apply List.map_congr_left
        intro f hf
        exact applyRen_move_step f (hone f hf) hgit hene hσe
      rw [hmap]
      have hfresh' : ∀ q ∈ R, basename q = some ".git" →
          (fun q => if q = e then some ((u k).take 8) else σ q) q
            = none := by
        intro q hq hq2
        have hqe : q ≠ e := by
          intro hc
          subst hc
          exact (List.nodup_cons.mp hnd).1 hq
        simp only [if_neg hqe]
        exact hfresh q (List.mem_cons_of_mem _ hq) hq2
      obtain ⟨σf, hrun, hmono, hcov, hshape⟩ := ih (k + 1) _
        (List.nodup_cons.mp hnd).2
        (fun q hq => hmem q (List.mem_cons_of_mem _ hq)) hfresh'
      refine ⟨σf, hrun, ?_, ?_, ?_⟩
      · intro q s hs
        apply hmono
        have hqe : q ≠ e := by
          intro hc
          subst hc
          rw [hσe] at hs
          exact Option.noConfusion hs
        simp only [if_neg hqe]
        exact hs
      · intro q hq hq2
        rcases List.mem_cons.mp hq with rfl | hq'
        · exact ⟨k, hmono q _ (by simp)⟩
        · exact hcov q hq' hq2
      · intro q s hs
        rcases hshape q s hs with hq | hj
        · by_cases hqe : q = e
          · subst hqe
            right
            refine ⟨k, ?_⟩
            have h5 : some ((u k).take 8) = some s := by simpa using hq
            exact (Option.some.inj h5).symm
          · left
            simpa [hqe] using hq
        · right
          exact hj

/-- Running the sanitisation loop of `_commit_through_worktree` over the
full enumeration: it succeeds, every `.git` entry is covered by the rename
record, and every recorded suffix is an 8-character uuid-hex prefix. -/
theorem sanitize_full (u : Nat → String) (fs0 : FS)
    (hone : ∀ f ∈ fs0, f.count ".git" ≤ 1) :
    ∃ σf : Path → Option String,
      sanitize u 0 fs0 (allEntries fs0)
        = some (fs0.map (applyRen σf)) ∧
      (∀ e ∈ allEntries fs0, basename e = some ".git" →
        ∃ j, σf e = some ((u j).take 8)) ∧
      (∀ e s, σf e = some s → ∃ j, s = (u j).take 8) := by
  have h0 : fs0.map (applyRen (fun _ => none)) = fs0 := by
    conv_rhs => rw [← List.map_id fs0]
    apply List.map_congr_left
    intro f _
    exact applyRen_bot f
  obtain ⟨σf, hrun, _, hcov, hshape⟩ := sanitize_ghost u fs0 hone
    (allEntries fs0) 0 (fun _ => none) (List.nodup_dedup _)
    (fun e he => he) (fun e _ _ => rfl)
  rw [h0] at hrun
  refine ⟨σf, hrun, hcov, ?_⟩
  intro e s hs
  rcases hshape e s hs with h | h
  · exact Option.noConfusion h
  · exact h

/-- After sanitisation no file of the tree has a `.git` segment anywhere:
the appended suffix `".git." ++ s` never reads `".git"` again, and every
other segment was not `.git` to begin with. -/
theorem no_git_after {fs0 : FS} {σf : Path → Option String}
    (hone : ∀ f ∈ fs0, f.count ".git" ≤ 1)
    (hcov : ∀ e ∈ allEntries fs0, basename e = some ".git" →
      ∃ s, σf e = some s) :
    ∀ f' ∈ fs0.map (applyRen σf), ∀ m : Nat,
      f'.get? m ≠ some ".git" := by
  intro f' hf' m hm
  obtain ⟨f, hf, rfl⟩ := List.mem_map.mp hf'
  cases hg : gitIdx f with
  | none =>
    rw [applyRen_none hg] at hm
    exact gitIdx_eq_none_iff.mp hg m hm
  | some n =>
    have hfn : f.get? n = some ".git" := gitIdx_eq_some hg
    have hnlt : n < f.length := lt_length_of_get?_git hfn
    have hent : f.take (n + 1) ∈ allEntries fs0 :=
      mem_allEntries.mpr ⟨f, hf, n, hnlt, rfl⟩
    have hbn : basename (f.take (n + 1)) = some ".git" := by
      rw [basename_take hnlt]
      exact hfn
    obtain ⟨s, hs⟩ := hcov _ hent hbn
    have happ : applyRen σf f = renameAt f n (".git." ++ s) := by
      rw [applyRen_some hg, hs]
    rw [happ] at hm
    by_cases hmn : m = n
    · subst hmn
      rw [get?_renameAt_self _ hnlt] at hm
      have hl := congrArg String.length (Option.some.inj hm)
      rw [String.length_append] at hl
      have h5 : (".git." : String).length = 5 := by decide
      have h4 : (".git" : String).length = 4 := by decide
      omega
    · rw [get?_renameAt_ne _ hnlt hmn] at hm
      exact hmn (git_unique (hone f hf) hm hfn)

/-- No sanitised tree has an entry whose final segment is `.git`. -/
theorem no_git_entry_after {fs0 : FS} {σf : Path → Option String}
    (hone : ∀ f ∈ fs0, f.count ".git" ≤ 1)
    (hcov : ∀ e ∈ allEntries fs0, basename e = some ".git" →
      ∃ s, σf e = some s) :
    ∀ p : Path, basename p = some ".git" →
      isEntry (fs0.map (applyRen σf)) p = false := by
  intro p hgit
  cases hE : isEntry (fs0.map (applyRen σf)) p with
  | false => rfl
  | true =>
    exfalso
    rw [isEntry, List.any_eq_true] at hE
    obtain ⟨f', hf', hinit⟩ := hE
    exact no_git_after hone hcov f' hf' (p.length - 1)
      (get?_of_initSeg_git hinit (ne_nil_of_basename hgit) hgit)

/-- Each renamed `.git` entry is present in the sanitised tree. -/
theorem renamed_present {fs0 : FS} {σf : Path → Option String}
    (hone : ∀ f ∈ fs0, f.count ".git" ≤ 1) {e : Path} {s : String}
    (he : e ∈ allEntries fs0) (hgit : basename e = some ".git")
    (hs : σf e = some s) :
    isEntry (fs0.map (applyRen σf)) (gitRename e s) = true := by
  obtain ⟨f, hf, n, hn, rfl⟩ := mem_allEntries.mp he
  have hfn : f.get? n = some ".git" := by
    rw [← basename_take hn]
    exact hgit
  have hidx : gitIdx f = some n := gitIdx_of_get? (hone f hf) hfn
  have happ : applyRen σf f = renameAt f n (".git." ++ s) := by
    rw [applyRen_some hidx, hs]
  rw [isEntry, List.any_eq_true]
  refine ⟨applyRen σf f, List.mem_map_of_mem _ hf, ?_⟩
  rw [happ, isInitSeg_iff]
  have hel : (gitRename (f.take (n + 1)) s).length = n + 1 := by
    rw [gitRename]
    simp only [List.length_append, List.length_dropLast, List.length_take,
      List.length_cons, List.length_nil]
    omega
  rw [hel, take_renameAt_succ _ hn, gitRename, dropLast_take_succ hn]

/-! ## C1 — the claim -/

/-- C1: on a successful run whose archive nests no `.git` below another
`.git`, `stage_and_commit` renames every enumerated sandbox path whose
final segment is exactly `.git` — at any depth — by appending a dot plus 8
hex characters of randomness before staging; the committed tree contains
each renamed path, contains no entry named `.git` anywhere, and indeed no
`.git` path segment at all. -/
theorem claim1_dotgit_sanitisation (w : WorldStep) (r : Repo)
    (message : String) (author : Option UserProfile) (branch : String)
    (t : Nat) (files : List Path)
    (hx : w.extracted = some files)
    (hst : w.stageOk = true) (hco : w.commitOk = true)
    (hcl : w.cleanupOk = true)
    (hbr : lookupBranch r branch = some t)
    (hone : ∀ f ∈ files, f.count ".git" ≤ 1)
    (hu : ∀ j : Nat, ((w.uuidHex j).take 8).length = 8 ∧
      ∀ ch ∈ ((w.uuidHex j).take 8).data, ch ∈ hexDigits) :
    ∃ c : Commit,
      (commitThroughWorktree w r message author branch).result
        = Except.ok r.commits.length ∧
      (commitThroughWorktree w r message author branch).repo.commits.get?
        r.commits.length = some c ∧
      (∀ e ∈ allEntries (files.map (fun f => "extracted" :: f)),
        basename e = some ".git" →
        ∃ s : String, s.length = 8 ∧ (∀ ch ∈ s.data, ch ∈ hexDigits) ∧
          isEntry c.tree (gitRename e s) = true) ∧
      (∀ p : Path, basename p = some ".git" →
        isEntry c.tree p = false) ∧
      (∀ f ∈ c.tree, ∀ m : Nat, f.get? m ≠ some ".git") := by
  have hone' : ∀ f ∈ files.map (fun f => "extracted" :: f),
      f.count ".git" ≤ 1 := by
    intro f hf
    obtain ⟨g, hg, rfl⟩ := List.mem_map.mp hf
    rw [List.count_cons_of_ne (by decide)]
    exact hone g hg
  obtain ⟨σf, hrun, hcov, hshape⟩ := sanitize_full w.uuidHex _ hone'
  have hbody := @worktreeBody_eq_ok w r message author branch files
    ((files.map (fun f => "extracted" :: f)).map (applyRen σf)) t
    hx hrun hst hco hbr
  have hcov' : ∀ e ∈ allEntries (files.map (fun f => "extracted" :: f)),
      basename e = some ".git" → ∃ s, σf e = some s := by
    intro e he hg
    obtain ⟨j, hj⟩ := hcov e he hg
    exact ⟨_, hj⟩
  refine ⟨{ tree := (files.map (fun f => "extracted" :: f)).map
              (applyRen σf)
            author := getAuthor author
            committer := getAuthor none
            message := message
            parents := [t] }, ?_, ?_, ?_, ?_, ?_⟩
  · simp only [commitThroughWorktree]
    rw [hbody]
    simp [hcl]
  · simp only [commitThroughWorktree]
    rw [hbody]
    simp only [hcl, if_true]
    exact get?_snoc r.commits _
  · intro e he hg
    obtain ⟨j, hj⟩ := hcov e he hg
    exact ⟨(w.uuidHex j).take 8, (hu j).1, (hu j).2,
      renamed_present hone' he hg hj⟩
  · intro p hg
    exact no_git_entry_after hone' hcov' p hg
  · exact no_git_after hone' hcov'

/-- C1 witness: the sanitisation theorem applied to an archive holding the
nested directory `some/dir/.git`, with the uuid draw used by the
repository's own test suite. -/
theorem claim1_witness :
    (∀ f ∈ dotGitFiles, f.count ".git" ≤ 1) ∧
    ∃ c : Commit,
      (commitThroughWorktree worldDotGit repoListed "rev 1" none
        "listed").result = Except.ok 1 ∧
      (commitThroughWorktree worldDotGit repoListed "rev 1" none
        "listed").repo.commits.get? 1 = some c ∧
      (∀ e ∈ allEntries (dotGitFiles.map (fun f => "extracted" :: f)),
        basename e = some ".git" →
        ∃ s : String, s.length = 8 ∧ (∀ ch ∈ s.data, ch ∈ hexDigits) ∧
          isEntry c.tree (gitRename e s) = true) ∧
      (∀ p : Path, basename p = some ".git" →
        isEntry c.tree p = false) ∧
      (∀ f ∈ c.tree, ∀ m : Nat, f.get? m ≠ some ".git") :=
  ⟨by decide,
   claim1_dotgit_sanitisation worldDotGit repoListed "rev 1" none "listed"
     0 dotGitFiles rfl rfl rfl rfl (by decide) (by decide)
     (fun _ =>
       ⟨(by decide :
          (("b236f5994773477bbcd2d1b75ab1458f" : String).take 8).length
            = 8),
        (by decide :
          ∀ ch ∈ (("b236f5994773477bbcd2d1b75ab1458f" : String).take
            8).data, ch ∈ hexDigits)⟩)⟩

end Olympia
